import Mathlib

/-!
Verification development for the birthday notification scheduler
(`bot/services/notif_service.py`, `bot/services/time_service.py`,
`bot/db/repo_groups.py`, `bot/db/repo_friends.py`, `bot/db/repo_users.py`).

Conventions of the shallow embedding:
* Python `datetime.date` is `Date` (proleptic Gregorian, unbounded years);
  constructing an invalid date raises `ValueError`, modelled as `Option`.
* A timezone-aware `datetime` with a fixed-offset `tzinfo` is `AwareDT`:
  the UTC instant in minutes since the Unix epoch plus the offset in
  minutes.  `astimezone` keeps the instant and changes the offset;
  subtracting a `timedelta` shifts the instant.
* Python `str` values manipulated character-wise (job names) are
  `List Char`; `str.startswith` is `List.isPrefixOf` and `str.split(":")`
  is `pySplit ':'`.
* The durable `notifications_sent` table is the list of its keys; SQL
  `INSERT OR IGNORE` is an insert-if-absent, `SELECT 1 WHERE key=...` is
  `List.contains`.
* The telegram `JobQueue` is a list of named one-shot jobs;
  `get_jobs_by_name` + `schedule_removal` + `run_once(name=...)` is
  `armJob`.
* Fallible reads (`users.list_all_users_with_bday`) are `Except`.
-/

set_option linter.unusedVariables false

namespace BirthdayBot

/-! ### Calendar: embedding of `datetime.date` as used by the code -/

/-- Gregorian leap-year rule used by `datetime.date`. -/
def isLeap (y : Nat) : Bool :=
  y % 4 == 0 && (y % 100 != 0 || y % 400 == 0)

/-- Length of month `m` in year `y` (0 for an out-of-range month). -/
def daysInMonth (y m : Nat) : Nat :=
  match m with
  | 1 => 31
  | 2 => if isLeap y then 29 else 28
  | 3 => 31
  | 4 => 30
  | 5 => 31
  | 6 => 30
  | 7 => 31
  | 8 => 31
  | 9 => 30
  | 10 => 31
  | 11 => 30
  | 12 => 31
  | _ => 0

/-- A calendar date (year unbounded; Python bounds years to 1..9999,
which never matters for the properties below). -/
structure Date where
  year : Nat
  month : Nat
  day : Nat
deriving DecidableEq

/-- Validity check performed by the `datetime.date` constructor. -/
def isValidDate (y m d : Nat) : Bool :=
  1 ≤ m && m ≤ 12 && 1 ≤ d && d ≤ daysInMonth y m

/-- Embedding of `datetime.date(y, m, d)`: `none` models a raised `ValueError`. -/
def mkDate (y m d : Nat) : Option Date :=
  if isValidDate y m d then some ⟨y, m, d⟩ else none

/-- Python `date.__lt__`: lexicographic on (year, month, day). -/
def dateLt (a b : Date) : Prop :=
  a.year < b.year ∨ (a.year = b.year ∧
    (a.month < b.month ∨ (a.month = b.month ∧ a.day < b.day)))

instance (a b : Date) : Decidable (dateLt a b) := by
  unfold dateLt
  exact inferInstance

/-- Python `date.__le__`. -/
def dateLe (a b : Date) : Prop :=
  dateLt a b ∨ a = b

instance (a b : Date) : Decidable (dateLe a b) := by
  unfold dateLe
  exact inferInstance

/-- A (day, month) pair that is a real birthday, i.e. constructible in
some year; year 4 is a leap year, so validity in year 4 is exactly
constructibility in some year. -/
def validBirthday (d m : Nat) : Prop :=
  isValidDate 4 m d = true

instance (d m : Nat) : Decidable (validBirthday d m) := by
  unfold validBirthday
  exact inferInstance

/-- Embedding of `time_service._safe_date`: build a date, falling back to Feb 28 for
Feb 29 in non-leap years; any other `ValueError` propagates (`none`). -/
def safeDate (y m d : Nat) : Option Date :=
  match mkDate y m d with
  | some dt => some dt
  | none => if m = 2 && d = 29 then mkDate y 2 28 else none

/-- Embedding of `time_service.next_birthday_date` along its explicit-base path (the
`base`-is-a-date branch; the tz branch only fabricates the base date).
`none` models a propagated `ValueError` from `_safe_date`. -/
def nextBirthdayDate (day month : Nat) (base : Date) (includeToday : Bool) :
    Option Date :=
  match safeDate base.year month day with
  | none => none
  | some cand =>
    if includeToday then
      if dateLt cand base then safeDate (base.year + 1) month day else some cand
    else
      if dateLe cand base then safeDate (base.year + 1) month day else some cand

/-- Embedding of `notif_service._next_birthday_date`: same computation but with plain
`datetime.date` construction inside a `try` that returns `None` on any
exception — there is no Feb-28 fallback here. -/
def notifNextBirthdayDate (bd bm : Nat) (today : Date) : Option Date :=
  match mkDate today.year bm bd with
  | none => none
  | some cand =>
    if dateLt cand today then mkDate (today.year + 1) bm bd else some cand

/-- Days since 1970-01-01 of a date (Howard Hinnant's `days_from_civil`,
the standard proleptic-Gregorian day count; `Int./` is floor division
for positive divisors). Embeds `date.toordinal` differences and
`(d1 - d2).days`. -/
def toDays (dt : Date) : Int :=
  let y : Int := if dt.month ≤ 2 then (dt.year : Int) - 1 else (dt.year : Int)
  let era := y / 400
  let yoe := y - era * 400
  let mp : Int := ((dt.month : Int) + 9) % 12
  let doy := (153 * mp + 2) / 5 + (dt.day : Int) - 1
  let doe := yoe * 365 + yoe / 4 - yoe / 100 + doy
  era * 146097 + doe - 719468

/-- Inverse day count (Hinnant's `civil_from_days`), used only to render
`strftime('%Y%m%d%H%M')` job-name stamps. -/
def civilFromDays (z0 : Int) : Int × Int × Int :=
  let z := z0 + 719468
  let era := z / 146097
  let doe := z - era * 146097
  let yoe := (doe - doe / 1460 + doe / 36524 - doe / 146096) / 365
  let y := yoe + era * 400
  let doy := doe - (365 * yoe + yoe / 4 - yoe / 100)
  let mp := (5 * doy + 2) / 153
  let d := doy - (153 * mp + 2) / 5 + 1
  let m := if mp < 10 then mp + 3 else mp - 9
  (if m ≤ 2 then y + 1 else y, m, d)

/-! ### Aware datetimes (fixed-offset timezones only, as in the code) -/

/-- A timezone-aware `datetime`: UTC instant in minutes since the epoch,
plus the fixed utcoffset in minutes. -/
structure AwareDT where
  instant : Int
  off : Int
deriving DecidableEq

/-- Embedding of `dt.astimezone(tz)`: same instant, new offset. -/
def astimezone (t : AwareDT) (offMin : Int) : AwareDT :=
  ⟨t.instant, offMin⟩

/-- Embedding of `dt - timedelta(hours=h)` on a fixed-offset aware datetime. -/
def subHours (t : AwareDT) (h : Int) : AwareDT :=
  ⟨t.instant - 60 * h, t.off⟩

/-- Embedding of `datetime.combine(d, time(0, 0, tzinfo=tz))`: the tz-local midnight
of calendar date `d`. Its `.date()` is `d` itself. -/
def combineMidnight (d : Date) (offMin : Int) : AwareDT :=
  ⟨1440 * toDays d - offMin, offMin⟩

/-- Lines 221–223 of `notif_service.schedule_all`:
`bday_local.astimezone(f_tz) - timedelta(hours=alert_h)`, converted back
to UTC. -/
def triggerUTC (bdayLocal : AwareDT) (fTzMin : Int) (alertH : Int) : AwareDT :=
  astimezone (subHours (astimezone bdayLocal fTzMin) alertH) 0

/-! ### Job names (`_job_name`) and their string matching -/

/-- Fuel-driven digit printer (structural recursion so that concrete
job names evaluate inside the kernel); with fuel ≥ n it computes the
decimal digits of n. -/
def natDigitsGo (fuel n : Nat) : List Char :=
  match fuel with
  | 0 => [Nat.digitChar n]
  | fuel + 1 =>
    if n < 10 then [Nat.digitChar n]
    else natDigitsGo fuel (n / 10) ++ [Nat.digitChar (n % 10)]

/-- Decimal digits of a natural number, as Python's `str(int)` prints
them. -/
def natDigits (n : Nat) : List Char :=
  natDigitsGo n n

/-- Numeric value of a digit string (used to invert `natDigits`). -/
def natVal (cs : List Char) : Nat :=
  cs.foldl (fun a c => 10 * a + (c.toNat - 48)) 0

/-- Zero-padding to width `k`, as in `strftime`'s `%02d`-style fields. -/
def natPad (k n : Nat) : List Char :=
  List.replicate (k - (natDigits n).length) '0' ++ natDigits n

/-- Embedding of `when_utc.strftime('%Y%m%d%H%M')` for a UTC instant in minutes. -/
def minuteStamp (t : Int) : List Char :=
  let c := civilFromDays (t / 1440)
  let mod := (t % 1440).toNat
  natPad 4 c.1.toNat ++ natPad 2 c.2.1.toNat ++ natPad 2 c.2.2.toNat ++
    natPad 2 (mod / 60) ++ natPad 2 (mod % 60)

/-- Embedding of `notif_service._job_name`:
`f"bday:{person_id}:{follower_id}:{when_utc.strftime('%Y%m%d%H%M')}"`. -/
def jobNameL (personId followerId : Nat) (whenUtc : Int) : List Char :=
  "bday:".data ++ natDigits personId ++ ':' :: natDigits followerId ++
    ':' :: minuteStamp whenUtc

/-- Python `str.split(sep)` for a one-character separator. -/
def pySplit (sep : Char) : List Char → List (List Char)
  | [] => [[]]
  | c :: cs =>
    if c = sep then [] :: pySplit sep cs
    else
      match pySplit sep cs with
      | [] => [[c]]
      | p :: ps => (c :: p) :: ps

/-- Embedding of the test `j.name.startswith(f"bday:{person_id}:")`
(from `reschedule_for_person`). -/
def matchesPersonName (nm : List Char) (personId : Nat) : Bool :=
  ("bday:".data ++ natDigits personId ++ [':']).isPrefixOf nm

/-- Embedding of the test `parts = j.name.split(":"); len(parts) >= 3 and parts[0] == "bday"
and parts[2] == str(follower_id)` (from `reschedule_for_follower`). -/
def matchesFollowerName (nm : List Char) (followerId : Nat) : Bool :=
  let parts := pySplit ':' nm
  decide (3 ≤ parts.length) && (parts.getD 0 [] == "bday".data) &&
    (parts.getD 2 [] == natDigits followerId)

/-! ### Durable claim store (`notifications_sent`) -/

/-- Key of the `notifications_sent` table:
(person_id, follower_id, date_ymd). -/
abbrev SentKey := Nat × Nat × Date

/-- Embedding of `NotifService._already_sent`: `SELECT 1 ... WHERE` key present. -/
def alreadySent (sent : List SentKey) (k : SentKey) : Bool :=
  sent.contains k

/-- Embedding of `NotifService._mark_sent_once`: `INSERT OR IGNORE` the key, then
return whether a row with the key exists ("either we inserted it now,
or it was there before"). First component is the returned boolean,
second the table afterwards. -/
def markSentOnce (sent : List SentKey) (k : SentKey) : Bool × List SentKey :=
  let sent' := if sent.contains k then sent else sent ++ [k]
  (sent'.contains k, sent')

/-! ### Delivery paths (`_fire_one` / `_fire_direct`) -/

/-- Observable events of a delivery attempt: the idempotency-row insert
and the outbound `send_message` call. -/
inductive Ev
  | claimIns
  | send
deriving DecidableEq

/-- Follower profile fields read by the scheduler
(`users.get_user` row, after `_as_int` parsing). -/
structure Prof where
  tz : Int
  alert_hours : Int
  chat_id : Option Int
deriving DecidableEq

/-- Common tail of `_fire_one` and `_fire_direct` once the date key is
known: `_mark_sent_once` (insert then existence check), bail out on a
false result or a missing/unreachable follower profile, otherwise call
`bot.send_message` inside a `try` whose failure is only logged (so the
resulting state never depends on `sendOk`). -/
def fireCore (sent : List SentKey) (k : SentKey) (fprof : Option Prof)
    (sendOk : Bool) : List SentKey × List Ev :=
  let sent' := if sent.contains k then sent else sent ++ [k]
  let okToSend := sent'.contains k
  if !okToSend then (sent', [Ev.claimIns])
  else
    match fprof with
    | none => (sent', [Ev.claimIns])
    | some f =>
      match f.chat_id with
      | none => (sent', [Ev.claimIns])
      | some _ => (sent', [Ev.claimIns, Ev.send])

/-- Embedding of `NotifService._fire_one`: read person/follower/date from the job
data (each may be missing) and run the claim-then-send tail. -/
def fireOne (sent : List SentKey) (personId followerId : Option Nat)
    (dateKey : Option Date) (fprof : Option Prof) (sendOk : Bool) :
    List SentKey × List Ev :=
  match personId, followerId, dateKey with
  | some p, some f, some d => fireCore sent (p, f, d) fprof sendOk
  | _, _, _ => (sent, [])

/-- Embedding of `NotifService._fire_direct`: the date key is the person-local
birthday date — either passed in as `bday_local` (whose `.date()` is the
occurrence date) or recomputed from the stored birthday via
`_next_birthday_date` (the person's timezone only shifts the midnight
instant, never the calendar date, so it does not appear here). -/
def fireDirect (sent : List SentKey) (personId followerId : Nat)
    (bdayLocalDate : Option Date)
    (birth : Option Nat × Option Nat × Option Nat) (today : Date)
    (fprof : Option Prof) (sendOk : Bool) : List SentKey × List Ev :=
  let dateKey : Option Date :=
    match bdayLocalDate with
    | some d => some d
    | none =>
      match birth with
      | (some d, some m, _) =>
        if d = 0 || m = 0 then none else notifNextBirthdayDate d m today
      | _ => none
  match dateKey with
  | none => (sent, [])
  | some nd => fireCore sent (personId, followerId, nd) fprof sendOk

/-! ### Relationship graph (`repo_groups` / `repo_friends`) -/

/-- A row set of `groups` + `group_members`: the creator and the member
rows' `member_user_id` values (`none` for handle-only members). -/
structure Group where
  gid : Nat
  creator : Nat
  memberIds : List (Option Nat)
deriving DecidableEq

/-- Embedding of `GroupsRepo.list_user_groups`: groups where the user is a member or
the creator. -/
def listUserGroups (gs : List Group) (uid : Nat) : List Group :=
  gs.filter (fun g => g.memberIds.contains (some uid) || g.creator == uid)

/-- Embedding of `GroupsRepo.list_members` restricted to the `user_id` column: the
member rows, plus the creator appended when not already present. -/
def listMembers (g : Group) : List (Option Nat) :=
  if g.memberIds.contains (some g.creator) then g.memberIds
  else g.memberIds ++ [some g.creator]

/-- The accumulation loop of `_followers_co_members`: append each
member's id when it is a nonzero int not yet collected. -/
def addIds (acc : List Nat) (ms : List (Option Nat)) : List Nat :=
  ms.foldl
    (fun a m =>
      match m with
      | some mid => if !(mid == 0) && !(a.contains mid) then a ++ [mid] else a
      | none => a)
    acc

/-- Embedding of `NotifService._followers_co_members`: collect ids over the person's
groups, then drop zero and the person itself. -/
def followersCoMembers (gs : List Group) (uid : Nat) : List Nat :=
  let ids := (listUserGroups gs uid).foldl (fun acc g => addIds acc (listMembers g)) []
  ids.filter (fun i => !(i == 0) && !(i == uid))

/-- A row of the `friends` table: owner plus either a resolved friend id
or a stored friend username. -/
structure FriendEdge where
  owner : Nat
  friendId : Option Nat
  friendUsername : Option String
deriving DecidableEq

/-- ASCII lowering (SQL `LOWER`, Python `str.lower` on the usernames at
hand). -/
def lowerStr (s : String) : String :=
  String.map Char.toLower s

/-- Embedding of `FriendsRepo.list_owners_for_person`: owners tracking the person by
id, plus owners tracking an unresolved row by lowered username;
deduplicated, zero dropped. -/
def listOwnersForPerson (edges : List FriendEdge) (personId : Option Nat)
    (usernameLower : Option String) : List Nat :=
  let o1 :=
    match personId with
    | some p =>
      (edges.filter (fun (e : FriendEdge) => e.friendId == some p)).map
        (fun (e : FriendEdge) => e.owner)
    | none => []
  let o2 :=
    match usernameLower with
    | some s =>
      if s = "" then []
      else
        (edges.filter (fun (e : FriendEdge) =>
          e.friendId == none && e.friendUsername.map lowerStr == some s)).map
          (fun (e : FriendEdge) => e.owner)
    | none => []
  ((o1 ++ o2).filter (fun o => !(o == 0))).dedup

/-- Embedding of `NotifService._followers_via_friends`: owners minus zero and the
person itself. -/
def followersViaFriends (edges : List FriendEdge) (personId : Nat)
    (usernameLower : Option String) : List Nat :=
  (listOwnersForPerson edges (some personId) usernameLower).filter
    (fun o => !(o == 0) && !(o == personId))

/-- Embedding of `NotifService._followers_union`: `list({x for x in (a + b) if x})` —
set union of the two sources with falsy ids dropped (the set's iteration
order is unspecified in Python; `dedup` fixes one order). -/
def followersUnion (gs : List Group) (edges : List FriendEdge) (personId : Nat)
    (usernameLower : Option String) : List Nat :=
  ((followersCoMembers gs personId ++ followersViaFriends edges personId usernameLower).filter
    (fun x => !(x == 0))).dedup

/-! ### Job queue and the `schedule_all` rebuild pass -/

/-- A pending one-shot job of the telegram `JobQueue`. -/
structure Job where
  name : List Char
  whenAt : Int
deriving DecidableEq

/-- Lines 243–262 of `schedule_all`: `get_jobs_by_name(name)` each get
`schedule_removal()`, then `run_once(..., name=name)` is enqueued. -/
def armJob (jobs : List Job) (nm : List Char) (whenUtc : Int) : List Job :=
  jobs.filter (fun j => !(j.name == nm)) ++ [⟨nm, whenUtc⟩]

/-- A `users` table row as read by `schedule_all`
(`list_all_users_with_bday`, after the `_UserRow` parsing). -/
structure PersonRow where
  user_id : Nat
  username : Option String
  birth_day : Option Nat
  birth_month : Option Nat
  birth_year : Option Nat
  tz : Int
  chat_id : Option Int

/-- The data sources and ambient values a rebuild pass reads:
relationship tables, follower profiles, transport outcomes, `now_utc`
(minutes) and `today_utc`. -/
structure Env where
  groups : List Group
  friendEdges : List FriendEdge
  profile : Nat → Option Prof
  sendOk : Nat → Nat → Bool
  now : Int
  today : Date

/-- Mutable state threaded through a rebuild pass: the job queue, the
`notifications_sent` table, and the trace of delivery events. -/
structure SchedState where
  jobs : List Job
  sent : List SentKey
  evs : List Ev
deriving DecidableEq

/-- How lines 221–241 of `schedule_all` classify one (person, follower)
pair: immediate catch-up when the trigger is within the last 12 hours
and the key is unclaimed, silent drop when it is past otherwise, arm a
timer when it is in the future. -/
inductive PairAction
  | catchup
  | drop
  | arm (trig : Int)
deriving DecidableEq

/-- The classification itself (12 hours = 720 minutes). -/
def classifyPair (sent : List SentKey) (now : Int) (bdayLocal : AwareDT)
    (nd : Date) (personId followerId : Nat) (fTz alertH : Int) : PairAction :=
  let trig := (triggerUTC bdayLocal (60 * fTz) alertH).instant
  if trig ≤ now ∧ now - trig ≤ 720 then
    if alreadySent sent (personId, followerId, nd) then .drop else .catchup
  else if trig ≤ now then .drop
  else .arm trig

/-- The body of the follower loop of `schedule_all` for one follower:
skip self and profile-less followers, then act on the classification
(catch-up via `_fire_direct`, future via `_job_name`/`run_once`). -/
def pairStep (env : Env) (u : PersonRow) (nd : Date) (st : SchedState)
    (fid : Nat) : SchedState :=
  if fid = u.user_id then st
  else
    match env.profile fid with
    | none => st
    | some f =>
      let bdayLocal := combineMidnight nd (60 * u.tz)
      match classifyPair st.sent env.now bdayLocal nd u.user_id fid f.tz f.alert_hours with
      | .catchup =>
        let r := fireDirect st.sent u.user_id fid (some nd)
          (u.birth_day, u.birth_month, u.birth_year) env.today
          (env.profile fid) (env.sendOk u.user_id fid)
        ⟨st.jobs, r.1, st.evs ++ r.2⟩
      | .arm trig => ⟨armJob st.jobs (jobNameL u.user_id fid trig) trig, st.sent, st.evs⟩
      | .drop => st

/-- Embedding of `(u.username or "").lower() if u.username else None`. -/
def personUnameL (u : PersonRow) : Option String :=
  match u.username with
  | some s => if s = "" then none else some (lowerStr s)
  | none => none

/-- The body of the person loop of `schedule_all`: skip rows without a
full birthday, rows whose next occurrence cannot be built, and rows
beyond the horizon; otherwise iterate the resolved follower union. -/
def processPersonState (env : Env) (horizon : Int) (st : SchedState)
    (u : PersonRow) : SchedState :=
  match u.birth_day, u.birth_month with
  | some bd, some bm =>
    if bd = 0 || bm = 0 then st
    else
      match notifNextBirthdayDate bd bm env.today with
      | none => st
      | some nd =>
        if horizon < toDays nd - toDays env.today then st
        else
          (followersUnion env.groups env.friendEdges u.user_id (personUnameL u)).foldl
            (pairStep env u nd) st
  | _, _ => st

/-- One full pass over the fetched rows. -/
def passState (env : Env) (horizon : Int) (rows : List PersonRow)
    (st : SchedState) : SchedState :=
  rows.foldl (processPersonState env horizon) st

/-- Embedding of `NotifService.schedule_all(horizon_days)`: a failed
`list_all_users_with_bday` is logged and aborts the pass with nothing
armed, cancelled or sent; otherwise every row is processed. -/
def scheduleAllModel (fetch : Except String (List PersonRow)) (env : Env)
    (horizon : Int) (jobs : List Job) (sent : List SentKey) : SchedState :=
  match fetch with
  | .error _ => ⟨jobs, sent, []⟩
  | .ok rows => passState env horizon rows ⟨jobs, sent, []⟩

/-- Embedding of `NotifService.reschedule_for_person`: drop every job whose name
starts with `"bday:{person_id}:"`, then rebuild with the last-used
horizon. -/
def rescheduleForPerson (fetch : Except String (List PersonRow)) (env : Env)
    (lastHorizon : Int) (jobs : List Job) (sent : List SentKey)
    (personId : Nat) : SchedState :=
  scheduleAllModel fetch env lastHorizon
    (jobs.filter (fun j => !(matchesPersonName j.name personId))) sent

/-- Embedding of `NotifService.reschedule_for_follower`: drop every job whose split
name has `"bday"` first and `str(follower_id)` third, then rebuild with
the last-used horizon. -/
def rescheduleForFollower (fetch : Except String (List PersonRow)) (env : Env)
    (lastHorizon : Int) (jobs : List Job) (sent : List SentKey)
    (followerId : Nat) : SchedState :=
  scheduleAllModel fetch env lastHorizon
    (jobs.filter (fun j => !(matchesFollowerName j.name followerId))) sent

/-! ### The arm operations a pass performs on the job queue

The timers a pass arms are a function of the sources alone (never of the
queue or the claim store), which is what makes the per-name supersession
analysis below possible. -/

/-- The (name, trigger) pair the follower-loop body arms, if any. -/
def armsOfPair (env : Env) (u : PersonRow) (nd : Date) (fid : Nat) :
    List (List Char × Int) :=
  if fid = u.user_id then []
  else
    match env.profile fid with
    | none => []
    | some f =>
      let trig := (triggerUTC (combineMidnight nd (60 * u.tz)) (60 * f.tz) f.alert_hours).instant
      if trig ≤ env.now then [] else [(jobNameL u.user_id fid trig, trig)]

/-- All arms the person-loop body performs for one row. -/
def armsOfPerson (env : Env) (horizon : Int) (u : PersonRow) :
    List (List Char × Int) :=
  match u.birth_day, u.birth_month with
  | some bd, some bm =>
    if bd = 0 || bm = 0 then []
    else
      match notifNextBirthdayDate bd bm env.today with
      | none => []
      | some nd =>
        if horizon < toDays nd - toDays env.today then []
        else
          (followersUnion env.groups env.friendEdges u.user_id (personUnameL u)).foldl
            (fun acc fid => acc ++ armsOfPair env u nd fid) []
  | _, _ => []

/-- All arms a pass performs. -/
def armsOf (env : Env) (horizon : Int) (rows : List PersonRow) :
    List (List Char × Int) :=
  rows.foldl (fun acc u => acc ++ armsOfPerson env horizon u) []

/-- Fold a list of arm operations over a job queue. -/
def rebuildArms (arms : List (List Char × Int)) (jobs : List Job) : List Job :=
  arms.foldl (fun js a => armJob js a.1 a.2) jobs

/-- The jobs an arm list leaves at the end of the queue: one job per
name, the last write winning. -/
def tailArms : List (List Char × Int) → List Job
  | [] => []
  | (nm, w) :: rest =>
    (if (rest.map Prod.fst).contains nm then [] else [⟨nm, w⟩]) ++ tailArms rest

/-- Number of jobs carrying a given name. -/
def countName (jobs : List Job) (nm : List Char) : Nat :=
  (jobs.filter (fun j => j.name == nm)).length

/-! ### Watcher alert models

The repository's `users` schema stores a single `alert_hours` integer
(the `HoursBefore` model); the days-at-a-wall-clock-time model is wired
in `bot/main.py` (conversation states `S_WAIT_ALERT_DAYS` /
`S_WAIT_ALERT_TIME`) but its implementation is not part of the sources,
so it is modelled from the specification below. -/

/-- Modelled from the spec: a watcher's alert model is either
`HoursBefore(n)` or `DaysBeforeAtTime(days, hh:mm)`; being a single
value, exactly one is active at a time. -/
inductive AlertModel
  | hoursBefore (n : Int)
  | daysBeforeAtTime (days hh mm : Int)
deriving DecidableEq

/-- Modelled from the spec: the watcher preference record — one
timezone offset and one active alert model. -/
structure WatcherPref where
  tzOff : Int
  alert : AlertModel
deriving DecidableEq

/-- Modelled from the spec: changing the preference replaces the single
active model. -/
def setAlertModel (w : WatcherPref) (m : AlertModel) : WatcherPref :=
  { w with alert := m }

/-- Embedding of `UsersRepo.update_alert_hours`: `UPDATE users SET alert_hours = ?`
— the one stored alert value is overwritten. -/
def updateAlertHours (p : Prof) (h : Int) : Prof :=
  { p with alert_hours := h }

/-- Modelled from the spec: the `DaysBeforeAtTime(days, hh:mm)` trigger
(§4.3): take the occurrence date in the watcher's local calendar, step
back `days` days, place the trigger at wall-clock hh:mm of that local
day, and express it in UTC. Days are numbered by the watcher-local day
index `(instant + offset) / 1440`. -/
def daysBeforeAtTimeTrigger (bdayInstant wOff days hh mm : Int) : Int :=
  ((bdayInstant + 60 * wOff) / 1440 - days) * 1440 + (60 * hh + mm) - 60 * wOff

/-- Modelled from the spec: the planner dispatch over the single active
model (the `hoursBefore` arm is the source's lines 221–223). -/
def planTrigger (bdayLocal : AwareDT) (w : WatcherPref) : Int :=
  match w.alert with
  | .hoursBefore n => (triggerUTC bdayLocal (60 * w.tzOff) n).instant
  | .daysBeforeAtTime days hh mm =>
    daysBeforeAtTimeTrigger bdayLocal.instant w.tzOff days hh mm

/-! ## Helper lemmas -/

theorem isPrefixOf_true_iff {α : Type} [DecidableEq α] : (l₁ l₂ : List α) →
    (l₁.isPrefixOf l₂ = true ↔ l₁ <+: l₂)
  | [], _ => by simp [List.isPrefixOf, List.nil_prefix]
  | _ :: _, [] => by simp [List.isPrefixOf]
  | a :: as, b :: bs => by
    simp only [List.isPrefixOf, Bool.and_eq_true, beq_iff_eq, List.cons_prefix_cons]
    exact and_congr Iff.rfl (isPrefixOf_true_iff as bs)

theorem digitChar_toNat {k : Nat} (h : k < 10) : (Nat.digitChar k).toNat = 48 + k := by
  interval_cases k <;> decide

theorem natDigitsGo_irrel (n : Nat) : ∀ fuel₁ fuel₂ : Nat,
    n ≤ fuel₁ → n ≤ fuel₂ → natDigitsGo fuel₁ n = natDigitsGo fuel₂ n := by
  induction n using Nat.strong_induction_on with
  | _ n ih =>
    intro fuel₁ fuel₂ h₁ h₂
    by_cases hn : n < 10
    · cases fuel₁ <;> cases fuel₂ <;> simp [natDigitsGo, hn]
    · have h10 : 10 ≤ n := by omega
      obtain ⟨f₁, rfl⟩ : ∃ f, fuel₁ = f + 1 := ⟨fuel₁ - 1, by omega⟩
      obtain ⟨f₂, rfl⟩ : ∃ f, fuel₂ = f + 1 := ⟨fuel₂ - 1, by omega⟩
      have hlt : n / 10 < n := Nat.div_lt_self (by omega) (by omega)
      simp only [natDigitsGo, if_neg hn]
      rw [ih (n / 10) hlt f₁ f₂ (by omega) (by omega)]

theorem natDigits_eq (n : Nat) : natDigits n =
    if n < 10 then [Nat.digitChar n]
    else natDigits (n / 10) ++ [Nat.digitChar (n % 10)] := by
  unfold natDigits
  by_cases hn : n < 10
  · cases n <;> simp [natDigitsGo, hn]
  · obtain ⟨f, hf⟩ : ∃ f, n = f + 1 := ⟨n - 1, by omega⟩
    subst hf
    rw [if_neg hn]
    simp only [natDigitsGo, if_neg hn]
    rw [natDigitsGo_irrel ((f + 1) / 10) f ((f + 1) / 10) (by omega) (by omega)]

theorem natVal_natDigits (n : Nat) : natVal (natDigits n) = n := by
  induction n using Nat.strong_induction_on with
  | _ n ih =>
    rw [natDigits_eq]
    split
    · simp [natVal, digitChar_toNat (by omega : n < 10)]
    · rename_i h
      have hlt : n / 10 < n := Nat.div_lt_self (by omega) (by omega)
      have h2 : natVal (natDigits (n / 10) ++ [Nat.digitChar (n % 10)]) =
          10 * natVal (natDigits (n / 10)) + ((Nat.digitChar (n % 10)).toNat - 48) := by
        simp [natVal]
      rw [h2, ih _ hlt, digitChar_toNat (Nat.mod_lt _ (by omega))]
      omega

theorem colon_not_mem_natDigits (n : Nat) : ':' ∉ natDigits n := by
  induction n using Nat.strong_induction_on with
  | _ n ih =>
    rw [natDigits_eq]
    split
    · rename_i h
      simp only [List.mem_singleton]
      intro hc
      have := digitChar_toNat (by omega : n < 10)
      rw [← hc] at this
      have h58 : (':').toNat = 58 := rfl
      omega
    · rename_i h
      have hlt : n / 10 < n := Nat.div_lt_self (by omega) (by omega)
      simp only [List.mem_append, List.mem_singleton, not_or]
      refine ⟨ih _ hlt, ?_⟩
      intro hc
      have := digitChar_toNat (Nat.mod_lt n (by omega) : n % 10 < 10)
      rw [← hc] at this
      have h58 : (':').toNat = 58 := rfl
      omega

theorem natDigits_inj {a b : Nat} (h : natDigits a = natDigits b) : a = b := by
  have ha := natVal_natDigits a
  rw [h, natVal_natDigits] at ha
  omega

theorem colon_not_mem_natPad (k n : Nat) : ':' ∉ natPad k n := by
  unfold natPad
  simp only [List.mem_append, not_or]
  constructor
  · intro hc
    have := List.eq_of_mem_replicate hc
    exact absurd this (by decide)
  · exact colon_not_mem_natDigits n

theorem colon_not_mem_minuteStamp (t : Int) : ':' ∉ minuteStamp t := by
  unfold minuteStamp
  simp only [List.mem_append, not_or]
  exact ⟨⟨⟨⟨colon_not_mem_natPad _ _, colon_not_mem_natPad _ _⟩,
    colon_not_mem_natPad _ _⟩, colon_not_mem_natPad _ _⟩, colon_not_mem_natPad _ _⟩

theorem takeWhile_colonfree (xs r : List Char) (h : ':' ∉ xs) :
    (xs ++ ':' :: r).takeWhile (fun c => !(c == ':')) = xs := by
  induction xs with
  | nil => simp
  | cons a as ih =>
    simp only [List.mem_cons, not_or] at h
    have ha : (a == ':') = false := by simp [Ne.symm h.1]
    simp [List.takeWhile, ha, ih h.2]

theorem colonfree_append_iff (xs ys r : List Char) (hx : ':' ∉ xs) (hy : ':' ∉ ys) :
    ((ys ++ [':']) <+: (xs ++ ':' :: r)) ↔ ys = xs := by
  constructor
  · rintro ⟨t, ht⟩
    have ht' : ys ++ ':' :: t = xs ++ ':' :: r := by simpa using ht
    have := congrArg (List.takeWhile (fun c => !(c == ':'))) ht'
    rwa [takeWhile_colonfree ys t hy, takeWhile_colonfree xs r hx] at this
  · rintro rfl
    exact ⟨r, by simp⟩

theorem pySplit_colonfree (xs : List Char) (h : ':' ∉ xs) :
    pySplit ':' xs = [xs] := by
  induction xs with
  | nil => rfl
  | cons a as ih =>
    simp only [List.mem_cons, not_or] at h
    unfold pySplit
    rw [if_neg (Ne.symm h.1), ih h.2]

theorem pySplit_append (xs r : List Char) (h : ':' ∉ xs) :
    pySplit ':' (xs ++ ':' :: r) = xs :: pySplit ':' r := by
  induction xs with
  | nil => simp [pySplit]
  | cons a as ih =>
    simp only [List.mem_cons, not_or] at h
    have hne : a ≠ ':' := fun e => h.1 e.symm
    simp only [List.cons_append, pySplit, hne, if_false, List.append_eq, ih h.2]

theorem jobNameL_decomp (p f : Nat) (t : Int) :
    jobNameL p f t =
      "bday".data ++ ':' :: (natDigits p ++ ':' :: (natDigits f ++ ':' :: minuteStamp t)) := by
  unfold jobNameL
  have : "bday:".data = "bday".data ++ [':'] := rfl
  rw [this]
  simp

theorem pySplit_jobNameL (p f : Nat) (t : Int) :
    pySplit ':' (jobNameL p f t) =
      ["bday".data, natDigits p, natDigits f, minuteStamp t] := by
  rw [jobNameL_decomp,
    pySplit_append _ _ (by decide),
    pySplit_append _ _ (colon_not_mem_natDigits p),
    pySplit_append _ _ (colon_not_mem_natDigits f),
    pySplit_colonfree _ (colon_not_mem_minuteStamp t)]

theorem matchesPersonName_jobNameL (p f : Nat) (t : Int) (pid : Nat) :
    matchesPersonName (jobNameL p f t) pid = true ↔ p = pid := by
  unfold matchesPersonName
  rw [isPrefixOf_true_iff, jobNameL_decomp]
  have assoc : "bday:".data ++ natDigits pid ++ [':'] =
      "bday".data ++ ':' :: (natDigits pid ++ [':']) := by
    have : "bday:".data = "bday".data ++ [':'] := rfl
    rw [this]
    simp
  rw [assoc]
  rw [List.prefix_append_right_inj, List.cons_prefix_cons]
  simp only [true_and]
  rw [colonfree_append_iff _ _ _ (colon_not_mem_natDigits p) (colon_not_mem_natDigits pid)]
  constructor
  · exact fun h => (natDigits_inj h).symm
  · rintro rfl; rfl

theorem matchesFollowerName_jobNameL (p f : Nat) (t : Int) (fid : Nat) :
    matchesFollowerName (jobNameL p f t) fid = true ↔ f = fid := by
  unfold matchesFollowerName
  rw [pySplit_jobNameL]
  simp only [List.length_cons, List.getD, Bool.and_eq_true, decide_eq_true_eq, beq_iff_eq]
  constructor
  · rintro ⟨⟨-, -⟩, h⟩
    exact natDigits_inj (by simpa using h)
  · rintro rfl
    refine ⟨⟨by omega, rfl⟩, by simp⟩

theorem contains_iff {α : Type} [BEq α] [LawfulBEq α] {l : List α} {a : α} :
    l.contains a = true ↔ a ∈ l := by
  simp [List.contains]

theorem countName_armJob_self (jobs : List Job) (nm : List Char) (w : Int) :
    countName (armJob jobs nm w) nm = 1 := by
  simp only [countName, armJob, List.filter_append, List.filter_filter]
  have h1 : jobs.filter (fun j => (j.name == nm) && !(j.name == nm)) = [] := by
    apply List.filter_eq_nil_iff.mpr
    intro j hj
    cases h : j.name == nm <;> simp [h]
  rw [h1]
  simp

theorem countName_armJob_other (jobs : List Job) (nm : List Char) (w : Int)
    (nm' : List Char) (h : nm' ≠ nm) :
    countName (armJob jobs nm w) nm' = countName jobs nm' := by
  simp only [countName, armJob, List.filter_append, List.filter_filter]
  have h2 : ([(⟨nm, w⟩ : Job)].filter (fun j => j.name == nm')) = [] := by
    simp [beq_eq_false_iff_ne, Ne.symm h]
  rw [h2]
  have h3 : (jobs.filter fun j => (j.name == nm') && !(j.name == nm)) =
      jobs.filter (fun j => j.name == nm') := by
    apply List.filter_congr
    intro j hj
    cases heq : j.name == nm' <;> simp [heq]
    intro e
    rw [eq_of_beq heq] at e
    exact h e
  rw [h3]
  simp

theorem rebuildArms_nil (jobs : List Job) : rebuildArms [] jobs = jobs := rfl

theorem rebuildArms_cons (nm : List Char) (w : Int)
    (A : List (List Char × Int)) (jobs : List Job) :
    rebuildArms ((nm, w) :: A) jobs = rebuildArms A (armJob jobs nm w) := rfl

theorem rebuildArms_append (A B : List (List Char × Int)) (jobs : List Job) :
    rebuildArms (A ++ B) jobs = rebuildArms B (rebuildArms A jobs) := by
  simp [rebuildArms, List.foldl_append]

theorem rebuildArms_decomp (A : List (List Char × Int)) (jobs : List Job) :
    rebuildArms A jobs =
      jobs.filter (fun j => !((A.map Prod.fst).contains j.name)) ++ tailArms A := by
  induction A generalizing jobs with
  | nil =>
    simp [rebuildArms, tailArms]
  | cons a A' ih =>
    obtain ⟨nm, w⟩ := a
    rw [rebuildArms_cons, ih]
    simp only [armJob, List.filter_append, List.filter_filter, List.map_cons, tailArms]
    have h3 : (jobs.filter fun j =>
        (!(A'.map Prod.fst).contains j.name) && !(j.name == nm)) =
        jobs.filter (fun j => !((nm :: A'.map Prod.fst).contains j.name)) := by
      apply List.filter_congr
      intro j hj
      simp only [List.contains_cons, Bool.not_or]
      cases h : j.name == nm <;> cases h' : (A'.map Prod.fst).contains j.name <;>
        simp [h, h']
    rw [h3]
    have h4 : ([(⟨nm, w⟩ : Job)].filter fun j => !(A'.map Prod.fst).contains j.name) =
        if (A'.map Prod.fst).contains nm then ([] : List Job) else [⟨nm, w⟩] := by
      rcases hcon : (A'.map Prod.fst).contains nm with _ | _
      · simp only [List.filter_cons, List.filter_nil, hcon, Bool.not_false]
        simp
      · simp only [List.filter_cons, List.filter_nil, hcon, Bool.not_true]
        simp
    rw [h4]
    simp [List.append_assoc]

theorem tailArms_name_mem (A : List (List Char × Int)) (j : Job)
    (h : j ∈ tailArms A) : (A.map Prod.fst).contains j.name = true := by
  induction A with
  | nil => simp [tailArms] at h
  | cons a A' ih =>
    obtain ⟨nm, w⟩ := a
    simp only [tailArms, List.mem_append] at h
    simp only [List.map_cons, List.contains_cons]
    rcases h with h | h
    · rcases hc : (A'.map Prod.fst).contains nm with _ | _
      · rw [hc, if_neg (by decide)] at h
        simp only [List.mem_singleton] at h
        subst h
        simp only [beq_self_eq_true, Bool.true_or]
      · rw [hc, if_pos rfl] at h
        simp at h
    · rw [ih h, Bool.or_true]

theorem rebuildArms_idem (A : List (List Char × Int)) (jobs : List Job) :
    rebuildArms A (rebuildArms A jobs) = rebuildArms A jobs := by
  rw [rebuildArms_decomp A jobs, rebuildArms_decomp A]
  set P : Job → Bool := fun j => !((A.map Prod.fst).contains j.name) with hP
  rw [List.filter_append, List.filter_filter]
  have h1 : (jobs.filter fun j => P j && P j) = jobs.filter P := by
    apply List.filter_congr
    intro j hj
    cases h : P j <;> simp [h]
  have h2 : (tailArms A).filter P = [] := by
    apply List.filter_eq_nil_iff.mpr
    intro j hj
    simp only [hP]
    rw [tailArms_name_mem A j hj]
    decide
  rw [h1, h2]
  simp

theorem foldl_append_acc {α β : Type} (g : α → List β) (l : List α)
    (acc : List β) :
    l.foldl (fun a x => a ++ g x) acc = acc ++ l.foldl (fun a x => a ++ g x) [] := by
  induction l generalizing acc with
  | nil => simp
  | cons x xs ih =>
    simp only [List.foldl_cons]
    rw [ih (acc ++ g x), ih (([] : List β) ++ g x)]
    simp

theorem pairStep_jobs (env : Env) (u : PersonRow) (nd : Date) (st : SchedState)
    (fid : Nat) :
    (pairStep env u nd st fid).jobs = rebuildArms (armsOfPair env u nd fid) st.jobs := by
  unfold pairStep armsOfPair
  by_cases hself : fid = u.user_id
  · simp [hself, rebuildArms_nil]
  · simp only [hself, if_false]
    cases hprof : env.profile fid with
    | none => simp [rebuildArms_nil]
    | some f =>
      simp only []
      unfold classifyPair
      by_cases h1 : (triggerUTC (combineMidnight nd (60 * u.tz)) (60 * f.tz) f.alert_hours).instant ≤ env.now
        ∧ env.now - (triggerUTC (combineMidnight nd (60 * u.tz)) (60 * f.tz) f.alert_hours).instant ≤ 720
      · rw [if_pos h1, if_pos h1.1]
        cases halready : alreadySent st.sent (u.user_id, fid, nd) <;>
          simp [halready, rebuildArms_nil]
      · rw [if_neg h1]
        by_cases h2 : (triggerUTC (combineMidnight nd (60 * u.tz)) (60 * f.tz) f.alert_hours).instant ≤ env.now
        · rw [if_pos h2, if_pos h2]
          simp [rebuildArms_nil]
        · rw [if_neg h2, if_neg h2]
          simp [rebuildArms_cons, rebuildArms_nil]

theorem followerFold_jobs (env : Env) (u : PersonRow) (nd : Date)
    (fids : List Nat) (st : SchedState) :
    ((fids.foldl (pairStep env u nd) st).jobs) =
      rebuildArms (fids.foldl (fun acc fid => acc ++ armsOfPair env u nd fid) []) st.jobs := by
  induction fids generalizing st with
  | nil => rfl
  | cons fid rest ih =>
    simp only [List.foldl_cons]
    rw [ih (pairStep env u nd st fid), pairStep_jobs]
    simp only [List.nil_append]
    rw [foldl_append_acc (armsOfPair env u nd) rest (armsOfPair env u nd fid)]
    rw [rebuildArms_append]

theorem processPersonState_jobs (env : Env) (horizon : Int) (st : SchedState)
    (u : PersonRow) :
    (processPersonState env horizon st u).jobs =
      rebuildArms (armsOfPerson env horizon u) st.jobs := by
  unfold processPersonState armsOfPerson
  cases hbd : u.birth_day with
  | none => cases u.birth_month <;> simp [rebuildArms_nil]
  | some bd =>
    cases hbm : u.birth_month with
    | none => simp [rebuildArms_nil]
    | some bm =>
      simp only []
      by_cases hz : bd = 0 || bm = 0
      · simp [hz, rebuildArms_nil]
      · simp only [hz, Bool.false_eq_true, if_false]
        cases hnd : notifNextBirthdayDate bd bm env.today with
        | none => simp [rebuildArms_nil]
        | some nd =>
          simp only []
          by_cases hh : horizon < toDays nd - toDays env.today
          · simp [hh, rebuildArms_nil]
          · simp only [hh, if_false]
            exact followerFold_jobs env u nd _ st

theorem passState_jobs (env : Env) (horizon : Int) (rows : List PersonRow)
    (st : SchedState) :
    (passState env horizon rows st).jobs = rebuildArms (armsOf env horizon rows) st.jobs := by
  unfold passState armsOf
  induction rows generalizing st with
  | nil => rfl
  | cons u rest ih =>
    simp only [List.foldl_cons]
    rw [ih (processPersonState env horizon st u), processPersonState_jobs]
    simp only [List.nil_append]
    rw [foldl_append_acc (armsOfPerson env horizon) rest (armsOfPerson env horizon u)]
    rw [rebuildArms_append]

theorem mem_addIds (x : Nat) (acc : List Nat) (ms : List (Option Nat)) :
    x ∈ addIds acc ms ↔ x ∈ acc ∨ (x ≠ 0 ∧ some x ∈ ms) := by
  induction ms generalizing acc with
  | nil => simp [addIds]
  | cons m ms ih =>
    cases m with
    | none =>
      have step : addIds acc (none :: ms) = addIds acc ms := rfl
      rw [step, ih]
      simp
    | some mid =>
      have step : addIds acc (some mid :: ms) =
          addIds (if !(mid == 0) && !(acc.contains mid) then acc ++ [mid] else acc) ms := rfl
      rw [step]
      have hcond : (!(mid == 0) && !(acc.contains mid)) = true ↔ (mid ≠ 0 ∧ mid ∉ acc) := by
        simp only [Bool.and_eq_true, Bool.not_eq_true', beq_eq_false_iff_ne, Ne,
          ← contains_iff]
        simp [contains_iff]
      by_cases h : mid ≠ 0 ∧ mid ∉ acc
      · rw [if_pos (hcond.mpr h), ih]
        simp only [List.mem_append, List.mem_cons, List.not_mem_nil, or_false,
          Option.some.injEq]
        constructor
        · rintro ((hx | rfl) | ⟨h0, hm⟩)
          · exact Or.inl hx
          · exact Or.inr ⟨h.1, Or.inl rfl⟩
          · exact Or.inr ⟨h0, Or.inr hm⟩
        · rintro (hx | ⟨h0, (rfl | hm)⟩)
          · exact Or.inl (Or.inl hx)
          · exact Or.inl (Or.inr rfl)
          · exact Or.inr ⟨h0, hm⟩
      · rw [if_neg (fun hh => h (hcond.mp hh)), ih]
        simp only [List.mem_cons, Option.some.injEq]
        push_neg at h
        constructor
        · rintro (hx | ⟨h0, hm⟩)
          · exact Or.inl hx
          · exact Or.inr ⟨h0, Or.inr hm⟩
        · rintro (hx | ⟨h0, (rfl | hm)⟩)
          · exact Or.inl hx
          · exact Or.inl (h h0)
          · exact Or.inr ⟨h0, hm⟩

theorem nodup_addIds (acc : List Nat) (ms : List (Option Nat))
    (h : acc.Nodup) : (addIds acc ms).Nodup := by
  induction ms generalizing acc with
  | nil => exact h
  | cons m ms ih =>
    cases m with
    | none => exact ih acc h
    | some mid =>
      have step : addIds acc (some mid :: ms) =
          addIds (if !(mid == 0) && !(acc.contains mid) then acc ++ [mid] else acc) ms := rfl
      rw [step]
      by_cases hcond : (!(mid == 0) && !(acc.contains mid)) = true
      · rw [if_pos hcond]
        apply ih
        have : mid ∉ acc := by
          intro hmem
          simp only [Bool.and_eq_true, Bool.not_eq_true'] at hcond
          rw [contains_iff.mpr hmem] at hcond
          exact absurd hcond.2 (by simp)
        simp [List.nodup_append, h, this]
      · rw [if_neg hcond]
        exact ih acc h

theorem mem_groupFold (x : Nat) (acc : List Nat) (gl : List Group) :
    x ∈ gl.foldl (fun acc g => addIds acc (listMembers g)) acc ↔
      x ∈ acc ∨ ∃ g ∈ gl, x ≠ 0 ∧ some x ∈ listMembers g := by
  induction gl generalizing acc with
  | nil => simp
  | cons g gl ih =>
    simp only [List.foldl_cons]
    rw [ih, mem_addIds]
    constructor
    · rintro ((h | h) | ⟨g', hg', h⟩)
      · exact Or.inl h
      · exact Or.inr ⟨g, List.mem_cons_self g gl, h⟩
      · exact Or.inr ⟨g', List.mem_cons_of_mem g hg', h⟩
    · rintro (h | ⟨g', hg', h⟩)
      · exact Or.inl (Or.inl h)
      · rcases List.mem_cons.mp hg' with rfl | hg'
        · exact Or.inl (Or.inr h)
        · exact Or.inr ⟨g', hg', h⟩

theorem mem_listMembers (g : Group) (x : Nat) :
    some x ∈ listMembers g ↔ some x ∈ g.memberIds ∨ g.creator = x := by
  unfold listMembers
  by_cases hc : g.memberIds.contains (some g.creator) = true
  · rw [if_pos hc]
    constructor
    · exact Or.inl
    · rintro (h | rfl)
      · exact h
      · exact contains_iff.mp hc
  · rw [if_neg hc]
    simp only [List.mem_append, List.mem_singleton, Option.some_inj]
    constructor
    · rintro (h | h)
      · exact Or.inl h
      · exact Or.inr h.symm
    · rintro (h | h)
      · exact Or.inl h
      · exact Or.inr h.symm

theorem mem_listUserGroups (gs : List Group) (uid : Nat) (g : Group) :
    g ∈ listUserGroups gs uid ↔
      g ∈ gs ∧ (some uid ∈ g.memberIds ∨ g.creator = uid) := by
  unfold listUserGroups
  simp only [List.mem_filter, Bool.or_eq_true, contains_iff, beq_iff_eq]

theorem mem_followersCoMembers (gs : List Group) (uid x : Nat) :
    x ∈ followersCoMembers gs uid ↔
      x ≠ 0 ∧ x ≠ uid ∧
        ∃ g ∈ gs, (some uid ∈ g.memberIds ∨ g.creator = uid) ∧
          (some x ∈ g.memberIds ∨ g.creator = x) := by
  unfold followersCoMembers
  rw [List.mem_filter, mem_groupFold]
  simp only [List.not_mem_nil, false_or, Bool.and_eq_true, Bool.not_eq_true',
    beq_eq_false_iff_ne, Ne]
  constructor
  · rintro ⟨⟨g, hg, hx0, hxm⟩, hx⟩
    rcases mem_listUserGroups gs uid g |>.mp hg with ⟨hgs, huid⟩
    exact ⟨hx.1, hx.2, g, hgs, huid, (mem_listMembers g x).mp hxm⟩
  · rintro ⟨hx0, hxu, g, hgs, huid, hxm⟩
    refine ⟨⟨g, ?_, hx0, (mem_listMembers g x).mpr hxm⟩, hx0, hxu⟩
    exact (mem_listUserGroups gs uid g).mpr ⟨hgs, huid⟩

theorem nodup_groupFold (gl : List Group) (acc : List Nat) (h : acc.Nodup) :
    (gl.foldl (fun acc g => addIds acc (listMembers g)) acc).Nodup := by
  induction gl generalizing acc with
  | nil => exact h
  | cons g gl ih => exact ih _ (nodup_addIds _ _ h)

theorem nodup_followersCoMembers (gs : List Group) (uid : Nat) :
    (followersCoMembers gs uid).Nodup := by
  unfold followersCoMembers
  exact List.Nodup.filter _ (nodup_groupFold _ [] List.nodup_nil)


theorem isValidDate_iff {y m d : Nat} :
    isValidDate y m d = true ↔ (1 ≤ m ∧ m ≤ 12 ∧ 1 ≤ d ∧ d ≤ daysInMonth y m) := by
  unfold isValidDate
  simp [Bool.and_eq_true, decide_eq_true_eq, and_assoc]

theorem invalid_birthday_feb29 {d m y : Nat} (hv : validBirthday d m)
    (hy : isValidDate y m d = false) : m = 2 ∧ d = 29 ∧ isLeap y = false := by
  have hv' := isValidDate_iff.mp hv
  have hy' : ¬(1 ≤ m ∧ m ≤ 12 ∧ 1 ≤ d ∧ d ≤ daysInMonth y m) := by
    rw [← isValidDate_iff, hy]
    simp
  obtain ⟨h1, h2, h3, h4⟩ := hv'
  by_cases hm2 : m = 2
  · subst hm2
    refine ⟨rfl, ?_⟩
    have h29 : daysInMonth 4 2 = 29 := by decide
    rcases hl : isLeap y with _ | _
    · have h28 : daysInMonth y 2 = 28 := by simp [daysInMonth, hl]
      have : ¬(d ≤ daysInMonth y 2) := fun hd => hy' ⟨h1, h2, h3, hd⟩
      exact ⟨by omega, rfl⟩
    · have h29' : daysInMonth y 2 = 29 := by simp [daysInMonth, hl]
      have : ¬(d ≤ daysInMonth y 2) := fun hd => hy' ⟨h1, h2, h3, hd⟩
      omega
  · exfalso
    have heq : daysInMonth y m = daysInMonth 4 m := by
      interval_cases m
      · rfl
      · exact absurd rfl hm2
      · rfl
      · rfl
      · rfl
      · rfl
      · rfl
      · rfl
      · rfl
      · rfl
      · rfl
      · rfl
    exact hy' ⟨h1, h2, h3, by omega⟩

theorem safeDate_birthday {d m : Nat} (y : Nat) (hv : validBirthday d m) :
    ∃ c : Date, safeDate y m d = some c ∧ c.year = y ∧
      ((c.month = m ∧ c.day = d) ∨
        (m = 2 ∧ d = 29 ∧ c.month = 2 ∧ c.day = 28 ∧ isLeap y = false)) := by
  unfold safeDate
  rcases hval : isValidDate y m d with _ | _
  · obtain ⟨hm2, hd29, hleap⟩ := invalid_birthday_feb29 hv hval
    subst hm2
    subst hd29
    have h28 : isValidDate y 2 28 = true := by
      apply isValidDate_iff.mpr
      refine ⟨by omega, by omega, by omega, ?_⟩
      simp [daysInMonth, hleap]
    refine ⟨⟨y, 2, 28⟩, ?_, rfl, Or.inr ⟨rfl, rfl, rfl, rfl, hleap⟩⟩
    simp only [mkDate, hval, Bool.false_eq_true, if_false, h28, if_true]
    rfl
  · refine ⟨⟨y, m, d⟩, ?_, rfl, Or.inl ⟨rfl, rfl⟩⟩
    simp only [mkDate, hval, if_true]

theorem dateLe_of_not_lt {a b : Date} (h : ¬ dateLt a b) : dateLe b a := by
  obtain ⟨y1, m1, d1⟩ := a
  obtain ⟨y2, m2, d2⟩ := b
  unfold dateLt at h
  unfold dateLe dateLt
  simp only [Date.mk.injEq]
  simp only at h
  omega

theorem dateLt_of_not_le {a b : Date} (h : ¬ dateLe a b) : dateLt b a := by
  obtain ⟨y1, m1, d1⟩ := a
  obtain ⟨y2, m2, d2⟩ := b
  unfold dateLe dateLt at h
  unfold dateLt
  simp only [Date.mk.injEq] at h
  simp only at h ⊢
  omega

theorem dateLt_of_year_lt {a b : Date} (h : a.year < b.year) : dateLt a b :=
  Or.inl h


/-! ## Claim theorems -/

/-- Claim C1 (code bug evidence): the spec says the delivery claim returns
true exactly once per (person, watcher, occurrence-date) key, and the
code's own comment says "true = we won the race ...; false = someone
already did" — but `_mark_sent_once` returns whether the row exists
*after* the `INSERT OR IGNORE`, which is always true: every call,
including repeat calls for an already-claimed key, returns true. -/
theorem c1_claim_not_exactly_once :
    (∀ (sent : List SentKey) (k : SentKey), (markSentOnce sent k).1 = true)
    ∧ (markSentOnce [] (1, 2, ⟨2024, 3, 1⟩)).1 = true
    ∧ (markSentOnce (markSentOnce [] (1, 2, ⟨2024, 3, 1⟩)).2 (1, 2, ⟨2024, 3, 1⟩)).1 = true := by
  refine ⟨?_, by decide, by decide⟩
  intro sent k
  by_cases hc : sent.contains k = true
  · simp only [markSentOnce, if_pos hc]
    exact hc
  · simp only [markSentOnce, if_neg hc]
    exact contains_iff.mpr (by simp)

/-- Claim C2 (counterexample): the scheduler's own next-occurrence helper
`notif_service._next_birthday_date` has no Feb-28 fallback: for the
valid birthday Feb 29 and reference date 2025-01-15 it returns no date
at all (the person is silently skipped), where the claim demands a
date. -/
theorem c2_scheduler_feb29_cex :
    validBirthday 29 2 ∧ notifNextBirthdayDate 29 2 ⟨2025, 1, 15⟩ = none := by
  constructor
  · decide
  · decide

/-- Claim C2 (amended): for every valid birthday (day, month), reference
date and `include_today` flag, `time_service.next_birthday_date` (the
spec's `next_occurrence`) returns a date ≥ the reference whose month and
day match the input — except that a Feb-29 birthday resolves to Feb 28
when the result year is not leap — in the reference year or the year
after. -/
theorem c2_next_occurrence_amended (d m : Nat) (base : Date) (includeToday : Bool)
    (hv : validBirthday d m) :
    ∃ c : Date, nextBirthdayDate d m base includeToday = some c ∧
      dateLe base c ∧
      ((c.month = m ∧ c.day = d) ∨
        (m = 2 ∧ d = 29 ∧ c.month = 2 ∧ c.day = 28 ∧ isLeap c.year = false)) ∧
      (c.year = base.year ∨ c.year = base.year + 1) := by
  obtain ⟨c0, hc0, hc0y, hc0md⟩ := safeDate_birthday base.year hv
  obtain ⟨c1, hc1, hc1y, hc1md⟩ := safeDate_birthday (base.year + 1) hv
  have hc1md' : (c1.month = m ∧ c1.day = d) ∨
      (m = 2 ∧ d = 29 ∧ c1.month = 2 ∧ c1.day = 28 ∧ isLeap c1.year = false) := by
    rcases hc1md with h | h
    · exact Or.inl h
    · exact Or.inr ⟨h.1, h.2.1, h.2.2.1, h.2.2.2.1, by rw [hc1y]; exact h.2.2.2.2⟩
  have hc0md' : (c0.month = m ∧ c0.day = d) ∨
      (m = 2 ∧ d = 29 ∧ c0.month = 2 ∧ c0.day = 28 ∧ isLeap c0.year = false) := by
    rcases hc0md with h | h
    · exact Or.inl h
    · exact Or.inr ⟨h.1, h.2.1, h.2.2.1, h.2.2.2.1, by rw [hc0y]; exact h.2.2.2.2⟩
  have hbump : dateLe base c1 :=
    Or.inl (dateLt_of_year_lt (by omega))
  have heq : nextBirthdayDate d m base includeToday =
      if includeToday then
        (if dateLt c0 base then safeDate (base.year + 1) m d else some c0)
      else
        (if dateLe c0 base then safeDate (base.year + 1) m d else some c0) := by
    unfold nextBirthdayDate
    rw [hc0]
  rw [heq]
  cases includeToday with
  | false =>
    rw [if_neg (by decide : ¬((false : Bool) = true))]
    by_cases hle : dateLe c0 base
    · rw [if_pos hle, hc1]
      exact ⟨c1, rfl, hbump, hc1md', Or.inr hc1y⟩
    · rw [if_neg hle]
      exact ⟨c0, rfl, Or.inl (dateLt_of_not_le hle), hc0md', Or.inl hc0y⟩
  | true =>
    rw [if_pos (by decide : (true : Bool) = true)]
    by_cases hlt : dateLt c0 base
    · rw [if_pos hlt, hc1]
      exact ⟨c1, rfl, hbump, hc1md', Or.inr hc1y⟩
    · rw [if_neg hlt]
      exact ⟨c0, rfl, dateLe_of_not_lt hlt, hc0md', Or.inl hc0y⟩

/-- Claim C2 witness: the amended theorem applied to the Feb-29 birthday
and the reference date 2023-03-01. -/
theorem c2_next_occurrence_amended_witness :
    validBirthday 29 2 ∧
      ∃ c : Date, nextBirthdayDate 29 2 ⟨2023, 3, 1⟩ true = some c ∧
        dateLe ⟨2023, 3, 1⟩ c ∧
        ((c.month = 2 ∧ c.day = 29) ∨
          (2 = 2 ∧ 29 = 29 ∧ c.month = 2 ∧ c.day = 28 ∧ isLeap c.year = false)) ∧
        (c.year = 2023 ∨ c.year = 2023 + 1) :=
  ⟨by decide, c2_next_occurrence_amended 29 2 ⟨2023, 3, 1⟩ true (by decide)⟩

/-- Claim C3: with the `HoursBefore(n)` model, the armed UTC trigger is
the person-local midnight of the occurrence date, expressed in UTC,
minus n hours; the watcher's timezone offset cancels out because
`astimezone` preserves the instant. -/
theorem c3_hours_before_trigger (D : Date) (p w w' n : Int) :
    triggerUTC (combineMidnight D (60 * p)) (60 * w) n =
      ⟨(combineMidnight D (60 * p)).instant - 60 * n, 0⟩
    ∧ (combineMidnight D (60 * p)).instant = 1440 * toDays D - 60 * p
    ∧ triggerUTC (combineMidnight D (60 * p)) (60 * w) n =
        triggerUTC (combineMidnight D (60 * p)) (60 * w') n :=
  ⟨rfl, rfl, rfl⟩

/-- Claim C7: on both delivery paths (`_fire_one` for a fired timer,
`_fire_direct` for the catch-up branch), the idempotency row is inserted
before `send_message` is invoked, at most one send is attempted, the row
stays in place whatever the send outcome, and a failed send changes
nothing (no same-cycle retry). -/
theorem c7_claim_then_send (sent : List SentKey) (k : SentKey)
    (fprof : Option Prof) (sendOk : Bool) :
    ((fireCore sent k fprof sendOk).2 = [Ev.claimIns]
      ∨ (fireCore sent k fprof sendOk).2 = [Ev.claimIns, Ev.send])
    ∧ (fireCore sent k fprof sendOk).1.contains k = true
    ∧ fireCore sent k fprof false = fireCore sent k fprof true
    ∧ (∀ (p f : Nat) (d : Date), fireOne sent (some p) (some f) (some d) fprof sendOk
        = fireCore sent (p, f, d) fprof sendOk)
    ∧ (∀ (pid fid : Nat) (birth : Option Nat × Option Nat × Option Nat)
        (today nd : Date), fireDirect sent pid fid (some nd) birth today fprof sendOk
        = fireCore sent (pid, fid, nd) fprof sendOk) := by
  have hmem : (if sent.contains k then sent else sent ++ [k]).contains k = true := by
    by_cases hc : sent.contains k = true
    · rw [if_pos hc]
      exact hc
    · rw [if_neg hc]
      exact contains_iff.mpr (by simp)
  refine ⟨?_, ?_, rfl, fun p f d => rfl, fun pid fid birth today nd => rfl⟩
  · unfold fireCore
    simp only [hmem, Bool.not_true, Bool.false_eq_true, if_false]
    cases fprof with
    | none => exact Or.inl rfl
    | some f =>
      obtain ⟨ftz, fah, fchat⟩ := f
      cases fchat with
      | none => exact Or.inl rfl
      | some c => exact Or.inr rfl
  · unfold fireCore
    simp only [hmem, Bool.not_true, Bool.false_eq_true, if_false]
    cases fprof with
    | none => exact hmem
    | some f =>
      obtain ⟨ftz, fah, fchat⟩ := f
      cases fchat with
      | none => exact hmem
      | some c => exact hmem

/-- Claim C9: when the user-directory read fails at the start of a rebuild
pass, the pass aborts: no timer armed, none cancelled (the job queue is
returned untouched, so previously armed timers still fire), nothing
sent, no event emitted. -/
theorem c9_directory_failure_aborts_pass (e : String) (env : Env) (horizon : Int)
    (jobs : List Job) (sent : List SentKey) :
    scheduleAllModel (Except.error e) env horizon jobs sent = ⟨jobs, sent, []⟩ :=
  rfl


/-- Claim C10: every timer armed by a rebuild is named
`bday:{person}:{follower}:{trigger minute}`; the prefix match used by
`reschedule_for_person` selects exactly the armed names whose person
component is the given id, the split match used by
`reschedule_for_follower` selects exactly those whose follower component
is the given id, and both entry points re-run a full rebuild with the
last-used horizon on the remaining queue. -/
theorem c10_job_name_targeting :
    (∀ (p f : Nat) (t : Int) (pid : Nat),
      matchesPersonName (jobNameL p f t) pid = true ↔ p = pid)
    ∧ (∀ (p f : Nat) (t : Int) (fid : Nat),
      matchesFollowerName (jobNameL p f t) fid = true ↔ f = fid)
    ∧ (∀ (fetch : Except String (List PersonRow)) (env : Env) (lastHorizon : Int)
        (jobs : List Job) (sent : List SentKey) (pid : Nat),
      rescheduleForPerson fetch env lastHorizon jobs sent pid =
        scheduleAllModel fetch env lastHorizon
          (jobs.filter (fun j => !(matchesPersonName j.name pid))) sent)
    ∧ (∀ (fetch : Except String (List PersonRow)) (env : Env) (lastHorizon : Int)
        (jobs : List Job) (sent : List SentKey) (fid : Nat),
      rescheduleForFollower fetch env lastHorizon jobs sent fid =
        scheduleAllModel fetch env lastHorizon
          (jobs.filter (fun j => !(matchesFollowerName j.name fid))) sent) :=
  ⟨matchesPersonName_jobNameL, matchesFollowerName_jobNameL,
    fun _ _ _ _ _ _ => rfl, fun _ _ _ _ _ _ => rfl⟩

/-- Claim C5 (counterexample): the arm step cancels only jobs bearing the
same full name, which includes the trigger minute — so after the arm
steps of two rebuilds that computed triggers one hour apart for the same
key (person 1, watcher 2), the queue holds two active jobs for that key
and the older one is still present, contradicting at-most-one-per-key
supersession. -/
theorem c5_duplicate_timer_cex :
    ((armJob (armJob [] (jobNameL 1 2 (1440 * toDays ⟨2024, 3, 1⟩)) (1440 * toDays ⟨2024, 3, 1⟩))
        (jobNameL 1 2 (1440 * toDays ⟨2024, 3, 1⟩ + 60)) (1440 * toDays ⟨2024, 3, 1⟩ + 60)).filter
      (fun j => matchesPersonName j.name 1 && matchesFollowerName j.name 2)).length = 2
    ∧ (⟨jobNameL 1 2 (1440 * toDays ⟨2024, 3, 1⟩), 1440 * toDays ⟨2024, 3, 1⟩⟩ : Job)
        ∈ armJob (armJob [] (jobNameL 1 2 (1440 * toDays ⟨2024, 3, 1⟩)) (1440 * toDays ⟨2024, 3, 1⟩))
          (jobNameL 1 2 (1440 * toDays ⟨2024, 3, 1⟩ + 60)) (1440 * toDays ⟨2024, 3, 1⟩ + 60) := by
  refine ⟨?_, ?_⟩
  · decide
  · decide

/-- Claim C5 (amended): arming cancels exactly the prior jobs under the
same full name (same person, watcher and trigger minute) — a changed
trigger leaves the old timer in place — while a second rebuild pass from
unchanged sources leaves the job queue exactly as the first pass left
it, so consecutive rebuilds with unchanged data add no duplicates per
key. -/
theorem c5_supersession_amended :
    (∀ (jobs : List Job) (nm : List Char) (w : Int),
      countName (armJob jobs nm w) nm = 1)
    ∧ (∀ (jobs : List Job) (nm : List Char) (w : Int) (nm' : List Char),
      nm' ≠ nm → countName (armJob jobs nm w) nm' = countName jobs nm')
    ∧ (∀ (env : Env) (horizon : Int) (rows : List PersonRow) (st : SchedState),
      (passState env horizon rows (passState env horizon rows st)).jobs =
        (passState env horizon rows st).jobs) := by
  refine ⟨countName_armJob_self, countName_armJob_other, ?_⟩
  intro env horizon rows st
  rw [passState_jobs, passState_jobs, rebuildArms_idem]

/-- Claim C5 witness for the amended theorem's conditional conjunct. -/
theorem c5_supersession_amended_witness :
    (['a'] : List Char) ≠ ['b'] ∧
      countName (armJob [] ['b'] 0) ['a'] = countName ([] : List Job) ['a'] :=
  ⟨by decide, c5_supersession_amended.2.1 [] ['b'] 0 ['a'] (by decide)⟩

/-- Claim C8 (`DaysBeforeAtTime` planner modelled from the spec, its
implementation being absent from the sources): the computed UTC trigger,
read back in the watcher's local clock, falls at wall time hh:mm on the
watcher-local day `days` before the occurrence's watcher-local day; and
exactly one alert model is active per watcher — the preference is one
field (one `alert_hours` column) and an update replaces it. -/
theorem c8_days_before_at_time (bdayInstant wOff days hh mm : Int)
    (hh0 : 0 ≤ hh) (hh24 : hh < 24) (mm0 : 0 ≤ mm) (mm60 : mm < 60) :
    (daysBeforeAtTimeTrigger bdayInstant wOff days hh mm + 60 * wOff) % 1440 = 60 * hh + mm
    ∧ (daysBeforeAtTimeTrigger bdayInstant wOff days hh mm + 60 * wOff) / 1440 =
        (bdayInstant + 60 * wOff) / 1440 - days
    ∧ (∀ (wp : WatcherPref) (m : AlertModel), (setAlertModel wp m).alert = m)
    ∧ (∀ (p : Prof) (h : Int), (updateAlertHours p h).alert_hours = h)
    ∧ (∀ (b : AwareDT) (w : WatcherPref) (d h mn : Int),
        w.alert = AlertModel.daysBeforeAtTime d h mn →
        planTrigger b w = daysBeforeAtTimeTrigger b.instant w.tzOff d h mn) := by
  refine ⟨?_, ?_, fun wp m => rfl, fun p h => rfl, ?_⟩
  · unfold daysBeforeAtTimeTrigger
    omega
  · unfold daysBeforeAtTimeTrigger
    omega
  · intro b w d h mn hw
    unfold planTrigger
    rw [hw]

/-- Claim C8 witness: the modelled planner at a concrete instant
(2024-03-01 midnight UTC), watcher offset +3h, 3 days before at
09:00. -/
theorem c8_days_before_at_time_witness :
    (0 : Int) ≤ 9 ∧ (9 : Int) < 24 ∧ (0 : Int) ≤ 0 ∧ (0 : Int) < 60 ∧
      ((daysBeforeAtTimeTrigger 28487520 3 3 9 0 + 60 * 3) % 1440 = 60 * 9 + 0
        ∧ (daysBeforeAtTimeTrigger 28487520 3 3 9 0 + 60 * 3) / 1440 =
            (28487520 + 60 * 3) / 1440 - 3
        ∧ (∀ (wp : WatcherPref) (m : AlertModel), (setAlertModel wp m).alert = m)
        ∧ (∀ (p : Prof) (h : Int), (updateAlertHours p h).alert_hours = h)
        ∧ (∀ (b : AwareDT) (w : WatcherPref) (d h mn : Int),
            w.alert = AlertModel.daysBeforeAtTime d h mn →
            planTrigger b w = daysBeforeAtTimeTrigger b.instant w.tzOff d h mn)) :=
  ⟨by decide, by decide, by decide, by decide,
    c8_days_before_at_time 28487520 3 3 9 0 (by decide) (by decide) (by decide) (by decide)⟩


/-- Claim C4: the rebuild pass (a) skips a person entirely — arming and
delivering nothing — when the next occurrence lies more than
`horizon_days` past today; (b) delivers immediately through the same
claim-then-send path (`_fire_direct`) when a pair's trigger is past by
at most 12 hours and its key is unclaimed; (c) does nothing — no send,
no timer — when the trigger is past by more than 12 hours or the key is
already claimed. -/
theorem c4_rebuild_classification :
    (∀ (env : Env) (horizon : Int) (st : SchedState) (u : PersonRow)
        (bd bm : Nat) (nd : Date),
      u.birth_day = some bd → u.birth_month = some bm →
      notifNextBirthdayDate bd bm env.today = some nd →
      horizon < toDays nd - toDays env.today →
      processPersonState env horizon st u = st)
    ∧ (∀ (env : Env) (u : PersonRow) (nd : Date) (st : SchedState)
        (fid : Nat) (f : Prof),
      fid ≠ u.user_id → env.profile fid = some f →
      (triggerUTC (combineMidnight nd (60 * u.tz)) (60 * f.tz) f.alert_hours).instant ≤ env.now →
      env.now - (triggerUTC (combineMidnight nd (60 * u.tz)) (60 * f.tz) f.alert_hours).instant ≤ 720 →
      alreadySent st.sent (u.user_id, fid, nd) = false →
      pairStep env u nd st fid =
        ⟨st.jobs,
         (fireDirect st.sent u.user_id fid (some nd)
           (u.birth_day, u.birth_month, u.birth_year) env.today
           (env.profile fid) (env.sendOk u.user_id fid)).1,
         st.evs ++ (fireDirect st.sent u.user_id fid (some nd)
           (u.birth_day, u.birth_month, u.birth_year) env.today
           (env.profile fid) (env.sendOk u.user_id fid)).2⟩)
    ∧ (∀ (env : Env) (u : PersonRow) (nd : Date) (st : SchedState)
        (fid : Nat) (f : Prof),
      fid ≠ u.user_id → env.profile fid = some f →
      (triggerUTC (combineMidnight nd (60 * u.tz)) (60 * f.tz) f.alert_hours).instant ≤ env.now →
      (720 < env.now - (triggerUTC (combineMidnight nd (60 * u.tz)) (60 * f.tz) f.alert_hours).instant
        ∨ alreadySent st.sent (u.user_id, fid, nd) = true) →
      pairStep env u nd st fid = st) := by
  refine ⟨?_, ?_, ?_⟩
  · intro env horizon st u bd bm nd hbd hbm hnd hh
    unfold processPersonState
    simp only [hbd, hbm]
    by_cases hz : bd = 0 ∨ bm = 0
    · have hzb : (decide (bd = 0) || decide (bm = 0)) = true := by
        rcases hz with h | h <;> simp [h]
      simp only [hzb, if_true]
    · push_neg at hz
      have hzb : (decide (bd = 0) || decide (bm = 0)) = false := by
        simp [hz.1, hz.2]
      simp only [hzb, Bool.false_eq_true, if_false, hnd]
      rw [if_pos hh]
  · intro env u nd st fid f hfid hprof h1 h2 h3
    unfold pairStep
    rw [if_neg hfid]
    simp only [hprof]
    simp only [classifyPair]
    rw [if_pos ⟨h1, h2⟩]
    simp only [h3, Bool.false_eq_true, if_false]
  · intro env u nd st fid f hfid hprof h1 h4
    unfold pairStep
    rw [if_neg hfid]
    simp only [hprof]
    simp only [classifyPair]
    by_cases hc : (triggerUTC (combineMidnight nd (60 * u.tz)) (60 * f.tz) f.alert_hours).instant ≤ env.now
      ∧ env.now - (triggerUTC (combineMidnight nd (60 * u.tz)) (60 * f.tz) f.alert_hours).instant ≤ 720
    · rw [if_pos hc]
      have hclaimed : alreadySent st.sent (u.user_id, fid, nd) = true := by
        rcases h4 with h | h
        · omega
        · exact h
      simp only [hclaimed, if_true]
    · rw [if_neg hc, if_pos h1]

/-- Claim C4 witness: the horizon skip (birthday 64 days out, horizon 7),
an immediate catch-up (trigger 10 minutes past, key unclaimed) and a
stale drop (trigger 1000 minutes past). -/
theorem c4_rebuild_classification_witness :
    (7 : Int) < toDays ⟨2024, 5, 1⟩ - toDays ⟨2024, 2, 27⟩
    ∧ alreadySent [] (1, 2, (⟨2024, 3, 1⟩ : Date)) = false
    ∧ processPersonState ⟨[], [], fun _ => none, fun _ _ => true, 0, ⟨2024, 2, 27⟩⟩ 7
        ⟨[], [], []⟩ ⟨10, none, some 1, some 5, none, 0, none⟩ = ⟨[], [], []⟩
    ∧ pairStep ⟨[], [], fun _ => some ⟨0, 0, some 99⟩, fun _ _ => true, 28487530, ⟨2024, 3, 1⟩⟩
        ⟨1, none, some 1, some 3, none, 0, some 5⟩ ⟨2024, 3, 1⟩ ⟨[], [], []⟩ 2 =
        ⟨[],
         (fireDirect [] 1 2 (some ⟨2024, 3, 1⟩) (some 1, some 3, none) ⟨2024, 3, 1⟩
           (some ⟨0, 0, some 99⟩) true).1,
         [] ++ (fireDirect [] 1 2 (some ⟨2024, 3, 1⟩) (some 1, some 3, none) ⟨2024, 3, 1⟩
           (some ⟨0, 0, some 99⟩) true).2⟩
    ∧ pairStep ⟨[], [], fun _ => some ⟨0, 0, some 99⟩, fun _ _ => true, 28488520, ⟨2024, 3, 1⟩⟩
        ⟨1, none, some 1, some 3, none, 0, some 5⟩ ⟨2024, 3, 1⟩ ⟨[], [], []⟩ 2 = ⟨[], [], []⟩ := by
  refine ⟨by decide, by decide, ?_, ?_, ?_⟩
  · exact c4_rebuild_classification.1
      ⟨[], [], fun _ => none, fun _ _ => true, 0, ⟨2024, 2, 27⟩⟩ 7 ⟨[], [], []⟩
      ⟨10, none, some 1, some 5, none, 0, none⟩ 1 5 ⟨2024, 5, 1⟩ rfl rfl (by decide) (by decide)
  · exact c4_rebuild_classification.2.1
      ⟨[], [], fun _ => some ⟨0, 0, some 99⟩, fun _ _ => true, 28487530, ⟨2024, 3, 1⟩⟩
      ⟨1, none, some 1, some 3, none, 0, some 5⟩ ⟨2024, 3, 1⟩ ⟨[], [], []⟩ 2 ⟨0, 0, some 99⟩
      (by decide) rfl (by decide) (by decide) (by decide)
  · exact c4_rebuild_classification.2.2
      ⟨[], [], fun _ => some ⟨0, 0, some 99⟩, fun _ _ => true, 28488520, ⟨2024, 3, 1⟩⟩
      ⟨1, none, some 1, some 3, none, 0, some 5⟩ ⟨2024, 3, 1⟩ ⟨[], [], []⟩ 2 ⟨0, 0, some 99⟩
      (by decide) rfl (by decide) (Or.inl (by decide))

/-- Claim C6: co-membership watching is symmetric between distinct
registered (nonzero-id) users; the resolved watcher union never contains
the person's own id and holds no duplicates; and a friend edge makes
only its owner a watcher of its target, never the converse. -/
theorem c6_watch_relations (gs : List Group) (edges : List FriendEdge)
    (uid a b : Nat) (uname : Option String)
    (ha : a ≠ 0) (hb : b ≠ 0) (hab : a ≠ b) :
    (a ∈ followersCoMembers gs b ↔ b ∈ followersCoMembers gs a)
    ∧ uid ∉ followersUnion gs edges uid uname
    ∧ (followersUnion gs edges uid uname).Nodup
    ∧ followersViaFriends [⟨a, some b, none⟩] b none = [a]
    ∧ followersViaFriends [⟨a, some b, none⟩] a none = [] := by
  refine ⟨?_, ?_, List.nodup_dedup _, ?_, ?_⟩
  · rw [mem_followersCoMembers, mem_followersCoMembers]
    constructor
    · rintro ⟨h0, hne, g, hg, hu, hx⟩
      exact ⟨hb, fun e => hab e.symm, g, hg, hx, hu⟩
    · rintro ⟨h0, hne, g, hg, hu, hx⟩
      exact ⟨ha, hab, g, hg, hx, hu⟩
  · intro hmem
    unfold followersUnion at hmem
    rw [List.mem_dedup, List.mem_filter] at hmem
    rcases List.mem_append.mp hmem.1 with h | h
    · exact ((mem_followersCoMembers gs uid uid).mp h).2.1 rfl
    · unfold followersViaFriends at h
      rw [List.mem_filter] at h
      have h2 := h.2
      simp at h2
  · unfold followersViaFriends listOwnersForPerson
    simp [ha, hab, List.dedup_cons_of_not_mem]
  · unfold followersViaFriends listOwnersForPerson
    have hba : (some b == some a) = false := by
      simp only [beq_eq_false_iff_ne, Ne, Option.some.injEq]
      exact fun e => hab e.symm
    simp [hba]

/-- Claim C6 witness: a single group with creator 7 and members 5 and 6,
no friend edges. -/
theorem c6_watch_relations_witness :
    (5 : Nat) ≠ 0 ∧ (6 : Nat) ≠ 0 ∧ (5 : Nat) ≠ 6 ∧
      ((5 ∈ followersCoMembers [⟨1, 7, [some 5, some 6]⟩] 6 ↔
          6 ∈ followersCoMembers [⟨1, 7, [some 5, some 6]⟩] 5)
        ∧ 7 ∉ followersUnion [⟨1, 7, [some 5, some 6]⟩] [] 7 none
        ∧ (followersUnion [⟨1, 7, [some 5, some 6]⟩] [] 7 none).Nodup
        ∧ followersViaFriends [⟨5, some 6, none⟩] 6 none = [5]
        ∧ followersViaFriends [⟨5, some 6, none⟩] 5 none = []) :=
  ⟨by decide, by decide, by decide,
    c6_watch_relations [⟨1, 7, [some 5, some 6]⟩] [] 7 5 6 none
      (by decide) (by decide) (by decide)⟩


end BirthdayBot
